import Mathlib

/-!
Verification of the article-management script `scripts/ma.py`.

The script is embedded shallowly: Python strings become `String`/`List Char`,
Python's `str.split`, `str.strip` and regex substitutions become executable
Lean functions with the same behaviour, the metadata dictionary becomes the
`Metadata` structure, and the two remote LLM calls become explicit
`Except`-valued oracles supplied as arguments.  Character classes of the
regexes (`\w`, `\s`) and `str.lower` are modelled at ASCII granularity.
-/

namespace MA

/-- The frontmatter delimiter `---` as a character list. -/
def d3 : List Char := ['-', '-', '-']

/-- Quote characters stripped by `value.strip('"\'')` in the script. -/
def isQuote (c : Char) : Bool := c = '"' || c = Char.ofNat 39

/-- Bracket characters stripped by `value.strip('[]')` in the script. -/
def isBracket (c : Char) : Bool := c = '[' || c = ']'

/-- Python `str.strip(chars)`: drop characters satisfying `p` from both ends. -/
def pyStripIf (p : Char → Bool) (l : List Char) : List Char :=
  ((l.dropWhile p).reverse.dropWhile p).reverse

/-- Python `str.strip()` (whitespace stripping, ASCII granularity). -/
def wsStrip (l : List Char) : List Char := pyStripIf Char.isWhitespace l

/-- Python `str.split(sep)` for a one-character separator and no `maxsplit`
(as in `value.split(',')` and `frontmatter.split('\n')`). -/
def splitChar (sep : Char) : List Char → List (List Char)
  | [] => [[]]
  | c :: cs =>
    let r := splitChar sep cs
    if c = sep then [] :: r
    else
      match r with
      | [] => [[c]]
      | h :: t => (c :: h) :: t

/-- Leftmost occurrence of `sep` in `s`: returns the part before the
occurrence and the part after it, or `none` if `sep` does not occur. -/
def findOcc (sep : List Char) : List Char → Option (List Char × List Char)
  | [] => if sep.isPrefixOf ([] : List Char) then some ([], []) else none
  | c :: cs =>
    if sep.isPrefixOf (c :: cs) then some ([], (c :: cs).drop sep.length)
    else (findOcc sep cs).map fun p => (c :: p.1, p.2)

/-- Python `str.split(sep, maxsplit)` for a non-empty separator, splitting at
the leftmost non-overlapping occurrences. -/
def pySplit (sep : List Char) : Nat → List Char → List (List Char)
  | 0, s => [s]
  | Nat.succ n, s =>
    match findOcc sep s with
    | none => [s]
    | some (pre, post) => pre :: pySplit sep n post

/-- The metadata record built by `extract_metadata`: exactly the five fields
`title`, `description`, `category` (strings) and `tags`, `references`
(lists of strings). -/
structure Metadata where
  title : String
  description : String
  category : String
  tags : List String
  references : List String
deriving DecidableEq, Repr

/-- The initial all-empty metadata record of `extract_metadata`. -/
def emptyMetadata : Metadata := ⟨"", "", "", [], []⟩

/-- `value.strip('"\'')` applied to an already whitespace-stripped scalar
value (`title`, `description`, `category`). -/
def scalarVal (v : List Char) : String := String.mk (pyStripIf isQuote v)

/-- List-valued fields: `value.strip('[]')`, split on `','`, each element
`t.strip().strip('"\'')` (`tags`, `references`). -/
def listVal (v : List Char) : List String :=
  (splitChar ',' (pyStripIf isBracket v)).map
    fun t => String.mk (pyStripIf isQuote (wsStrip t))

/-- The guard and split of one frontmatter line: `if ':' in line` then
`key, value = line.split(':', 1)` with both parts stripped. -/
def kvOf (line : List Char) : Option (List Char × List Char) :=
  if line.contains ':' then
    let parts := pySplit [':'] 1 line
    some (wsStrip (parts.headD []), wsStrip ((parts.drop 1).headD []))
  else none

/-- The `if key == 'title': ... elif ...` dispatch of `extract_metadata`. -/
def procKV (m : Metadata) (k v : List Char) : Metadata :=
  if k = "title".data then { m with title := scalarVal v }
  else if k = "description".data then { m with description := scalarVal v }
  else if k = "category".data then { m with category := scalarVal v }
  else if k = "tags".data then { m with tags := listVal v }
  else if k = "references".data then { m with references := listVal v }
  else m

/-- One iteration of the frontmatter line loop of `extract_metadata`. -/
def procLine (m : Metadata) (line : List Char) : Metadata :=
  match kvOf line with
  | some (k, v) => procKV m k v
  | none => m

/-- The body of `extract_metadata` once the frontmatter block is in hand:
`for line in frontmatter.strip().split('\n'): ...`. -/
def metaOfFrontmatter (fm : List Char) : Metadata :=
  (splitChar '\n' (wsStrip fm)).foldl procLine emptyMetadata

/-- `extract_metadata` at the character-list level: check
`content.startswith('---')`, `content.split('---', 2)`, and require at least
three parts before processing `parts[1]`. -/
def extractMetaL (content : List Char) : Metadata :=
  if d3.isPrefixOf content then
    match pySplit d3 2 content with
    | _ :: p1 :: _ :: _ => metaOfFrontmatter p1
    | _ => emptyMetadata
  else emptyMetadata

/-- `ArticleManager.extract_metadata` from `scripts/ma.py`. -/
def extract_metadata (content : String) : Metadata := extractMetaL content.data

/-- One iteration of the line loop with the fallible tuple unpacking
`key, value = line.split(':', 1)` made explicit: any other shape of the
split result would raise in Python and is an `error` here. -/
def procLineE (m : Metadata) (line : List Char) : Except String Metadata :=
  if line.contains ':' then
    match pySplit [':'] 1 line with
    | [k, v] => Except.ok (procKV m (wsStrip k) (wsStrip v))
    | _ => Except.error "unpacking line.split failed"
  else Except.ok m

/-- `extract_metadata` with its only fallible operation (tuple unpacking of
`line.split(':', 1)`) modelled in the `Except` monad. -/
def extractMetaE (content : List Char) : Except String Metadata :=
  if d3.isPrefixOf content then
    match pySplit d3 2 content with
    | _ :: p1 :: _ :: _ =>
      (splitChar '\n' (wsStrip p1)).foldlM procLineE emptyMetadata
    | _ => Except.ok emptyMetadata
  else Except.ok emptyMetadata

/-- `extract_metadata` with raise points modelled, at the string level. -/
def extract_metadataE (content : String) : Except String Metadata :=
  extractMetaE content.data

/-- The value carried by the last frontmatter line whose stripped key equals
`key`, if any. -/
def lastVal (key : List Char) (lines : List (List Char)) : Option (List Char) :=
  (((lines.filterMap kvOf).filter fun p => decide (p.1 = key)).getLast?).map
    Prod.snd

/-- Field-wise reading of the frontmatter lines, following the spec: each
field takes its value from the corresponding `key: value` line. -/
def metaOfLines_spec (lines : List (List Char)) : Metadata where
  title := ((lastVal "title".data lines).map scalarVal).getD ""
  description := ((lastVal "description".data lines).map scalarVal).getD ""
  category := ((lastVal "category".data lines).map scalarVal).getD ""
  tags := ((lastVal "tags".data lines).map listVal).getD []
  references := ((lastVal "references".data lines).map listVal).getD []

/-- The spec's description of metadata extraction: parse the frontmatter
block into a record whose fields come from the corresponding `key: value`
lines, scalars stripped of whitespace and quotes, lists stripped of brackets
and split on commas. -/
def metadata_spec (content : String) : Metadata :=
  if d3.isPrefixOf content.data then
    match pySplit d3 2 content.data with
    | _ :: p1 :: _ :: _ => metaOfLines_spec (splitChar '\n' (wsStrip p1))
    | _ => emptyMetadata
  else emptyMetadata

/-- The JSON object returned by the category/tag LLM call, with each key
possibly absent (`generated.get(..., default)` supplies defaults). -/
structure Generated where
  category : Option String
  tags : Option (List String)
  related_pages : Option (List String)
deriving DecidableEq, Repr

/-- The fallback dictionary returned by `generate_categories_and_tags` when
the API call raises: `{"category": "General", "tags": [], "related_pages": []}`. -/
def fallbackGenerated : Generated := ⟨some "General", some [], some []⟩

/-- `ArticleManager.generate_categories_and_tags`: the remote call is an
oracle; an exception is caught, a warning printed, and the fallback
dictionary returned. -/
def generate_categories_and_tags (resp : Except String Generated) : Generated :=
  match resp with
  | Except.ok g => g
  | Except.error _ => fallbackGenerated

/-- The three conditional updates inside the inference branch of
`process_article` (lines 263-268 of `ma.py`). -/
def applyGenerated (m : Metadata) (g : Generated) : Metadata :=
  let m1 := if m.category = "" then { m with category := g.category.getD "General" } else m
  let m2 := if m1.tags = [] then { m1 with tags := g.tags.getD [] } else m1
  if m2.references = [] then { m2 with references := g.related_pages.getD [] } else m2

/-- The metadata phase of `process_article`: run the inference call exactly
when category or tags are falsy; the boolean records whether the external
call was made. -/
def metadata_phase (m : Metadata) (resp : Except String Generated) :
    Metadata × Bool :=
  if m.category = "" ∨ m.tags = [] then
    (applyGenerated m (generate_categories_and_tags resp), true)
  else (m, false)

/-- The `nav_links` dictionary of `create_full_html_page`. -/
def nav_links : List (String × String) :=
  [("index.html", "ホーム"), ("math.html", "算数"), ("japanese.html", "国語"),
   ("science.html", "理科"), ("social.html", "社会"), ("tips.html", "コツ・勉強法")]

/-- The six navigation filenames, in page order. -/
def nav_files : List String := nav_links.map Prod.fst

/-- The `category_to_file` dictionary of `create_full_html_page`. -/
def category_to_file : List (String × String) :=
  [("算数", "math.html"), ("国語", "japanese.html"), ("理科", "science.html"),
   ("社会", "social.html"), ("コツ・勉強法", "tips.html")]

/-- Python `dict.get(key, default)` on an association list with unique keys. -/
def dict_get (l : List (String × String)) (k : String) (dflt : String) : String :=
  match l with
  | [] => dflt
  | (a, b) :: t => if k = a then b else dict_get t k dflt

/-- `active_page = category_to_file.get(category, output_filename)`. -/
def active_page (category output_filename : String) : String :=
  dict_get category_to_file category output_filename

/-- One `<li>` entry of the navigation list, with the `active` class present
exactly when the flag is set. -/
def nav_li (file label : String) (active : Bool) : String :=
  "                    <li><a href=\"" ++ file ++ "\" class=\"nav-link"
    ++ (if active then " active" else "") ++ "\">" ++ label ++ "</a></li>"

/-- The list `nav_html` built by `create_full_html_page`: one entry per
navigation link, active exactly on `active_page`. -/
def nav_html (category output_filename : String) : List String :=
  nav_links.map fun fl => nav_li fl.1 fl.2
    (decide (fl.1 = active_page category output_filename))

/-- The per-link activity flags of the navigation list. -/
def active_flags (category output_filename : String) : List Bool :=
  nav_files.map fun g => decide (g = active_page category output_filename)

/-- How many navigation links carry the `active` class. -/
def active_count (category output_filename : String) : Nat :=
  (active_flags category output_filename).count true

/-- The breadcrumb block of `create_full_html_page`. -/
def breadcrumb_html (title : String) : String :=
  "    <nav class=\"breadcrumb\">\n        <div class=\"container\">\n            <ol class=\"breadcrumb-list\">\n                <li><a href=\"index.html\" class=\"breadcrumb-link\">ホーム</a></li>\n                <li class=\"breadcrumb-separator\">></li>\n                <li>" ++ title ++ "</li>\n            </ol>\n        </div>\n    </nav>"

/-- Everything in the page before the spliced-in content fragment: doctype,
head, header with navigation, breadcrumb, and the opening of the main
container. -/
def page_top (title description category output_filename : String) : String :=
  "<!DOCTYPE html>\n<html lang=\"ja\">\n<head>\n    <meta charset=\"UTF-8\">\n    <meta name=\"viewport\" content=\"width=device-width, initial-scale=1.0\">\n    <title>"
  ++ title
  ++ " - 中学受験パス</title>\n    <meta name=\"description\" content=\""
  ++ description
  ++ "\">\n    <link rel=\"stylesheet\" href=\"styles.css\">\n</head>\n<body>\n    <header class=\"header\">\n        <div class=\"container\">\n            <h1 class=\"logo\">中学受験パス</h1>\n            <nav class=\"nav\">\n                <ul class=\"nav-list\">\n"
  ++ String.intercalate "\n" (nav_html category output_filename)
  ++ "\n                </ul>\n            </nav>\n        </div>\n    </header>\n\n"
  ++ breadcrumb_html title
  ++ "\n\n    <main class=\"main\">\n        <div class=\"container\">\n"

/-- The fixed footer block of the page template. -/
def footer_html : String :=
  "    <footer class=\"footer\">\n        <div class=\"container\">\n            <p class=\"footer-text\">&copy; 2024 中学受験パス. 頑張る受験生を応援します。</p>\n        </div>\n    </footer>"

/-- Everything in the page after the spliced-in content fragment: closing of
the main container, the fixed footer, and the closing tags. -/
def page_suffix : String :=
  "\n        </div>\n    </main>\n\n" ++ footer_html ++ "\n</body>\n</html>"

/-- `ArticleManager.create_full_html_page` from `scripts/ma.py`. -/
def create_full_html_page (content : String) (m : Metadata)
    (output_filename : String) : String :=
  page_top m.title m.description m.category output_filename
    ++ content ++ page_suffix

/-- Regex class `\w` of `re.sub(r'[^\w\s-]', '', title)`, ASCII granularity. -/
def isWordChar (c : Char) : Bool := c.isAlphanum || c = '_'

/-- Regex class `\s`, ASCII granularity. -/
def isSpaceChar (c : Char) : Bool := c.isWhitespace

/-- The class `[-\s]` of the second substitution. -/
def dashSpace (c : Char) : Bool := c = '-' || isSpaceChar c

/-- `re.sub(r'[^\w\s-]', '', title)`: delete every character that is not a
word character, whitespace or hyphen. -/
def sub_nonword (l : List Char) : List Char :=
  l.filter fun c => isWordChar c || isSpaceChar c || c = '-'

/-- `re.sub(r'[-\s]+', '-', s)`: each maximal run of hyphens and whitespace
becomes a single hyphen. -/
def collapseRuns : List Char → List Char
  | [] => []
  | c :: cs =>
    if dashSpace c then '-' :: collapseRuns (cs.dropWhile dashSpace)
    else c :: collapseRuns cs
termination_by l => l.length
decreasing_by
  · simp only [List.length_cons]
    have h := (List.dropWhile_sublist (l := cs) dashSpace).length_le
    omega
  · simp only [List.length_cons]
    omega

/-- Python `str.lower()`, ASCII granularity. -/
def pyLower (l : List Char) : List Char := l.map Char.toLower

/-- The slug computed from the title in `process_article` (lines 279-280). -/
def slugify (title : String) : String :=
  String.mk (pyLower (collapseRuns (sub_nonword title.data)))

/-- The generated output name: slug of the title when the title is truthy,
otherwise the article file stem, with `.html` appended. -/
def genName (m : Metadata) (stem : String) : String :=
  if m.title ≠ "" then slugify m.title ++ ".html" else stem ++ ".html"

/-- The output-filename logic of `process_article` (lines 276-283): a falsy
supplied name (absent or empty) is replaced by the generated one. -/
def determine_output_filename (supplied : Option String) (m : Metadata)
    (stem : String) : String :=
  match supplied with
  | none => genName m stem
  | some s => if s = "" then genName m stem else s

/-- Spec reading of the run replacement: scan left to right, emitting a
single hyphen at the first character of each maximal hyphen/whitespace run
and dropping the rest of the run; the flag says whether the previous
character belonged to such a run. -/
def collapseRunsSpec : Bool → List Char → List Char
  | _, [] => []
  | prev, c :: cs =>
    if dashSpace c then
      if prev then collapseRunsSpec true cs
      else '-' :: collapseRunsSpec true cs
    else c :: collapseRunsSpec false cs

/-- The claim's description of the slug: delete characters outside
word/whitespace/hyphen, replace each maximal hyphen/whitespace run by a
single hyphen, lowercase. -/
def slug_spec (title : String) : String :=
  String.mk (pyLower (collapseRunsSpec false (sub_nonword title.data)))

/-- Outcomes of the effectful steps of one `process_article` run: reading
the article, the category/tag LLM call, the markdown-to-HTML LLM call, and
the final file write.  An `error` models a raised exception. -/
structure PipelineEnv where
  readRes : Except String String
  ctResp : Except String Generated
  htmlRes : Except String String
  writeRes : Except String Unit
deriving Repr

/-- `ArticleManager.process_article`: read, extract metadata, optionally
infer category/tags, generate HTML, determine the output filename, build
the full page, write it.  Uncaught exceptions propagate. -/
def process_article (env : PipelineEnv) (output_filename : Option String)
    (stem : String) : Except String (String × String) := do
  let content ← env.readRes
  let m0 := extract_metadata content
  let m := (metadata_phase m0 env.ctResp).1
  let html ← env.htmlRes
  let fname := determine_output_filename output_filename m stem
  let page := create_full_html_page html m fname
  let _ ← env.writeRes
  pure (fname, page)

/-- What `main` does with the run: success, or report the first uncaught
error and exit with status 1. -/
inductive MainResult where
  | ok : MainResult
  | errorExit : String → MainResult
deriving DecidableEq, Repr

/-- The `try/except` wrapper in `main`: any exception from the pipeline is
reported and the process exits. -/
def main_run (env : PipelineEnv) (o : Option String) (stem : String) :
    MainResult :=
  match process_article env o stem with
  | Except.ok _ => MainResult.ok
  | Except.error e => MainResult.errorExit e

/-- Whether an `Except` value is a success. -/
def exceptIsOk {α : Type} : Except String α → Bool
  | Except.ok _ => true
  | Except.error _ => false

theorem isPrefixOf_append_self : ∀ (p r : List Char), p.isPrefixOf (p ++ r) = true
  | [], _ => by simp
  | c :: cs, r => by
    simp only [List.cons_append, List.isPrefixOf_cons₂_self]
    exact isPrefixOf_append_self cs r

theorem eq_append_drop_of_isPrefixOf :
    ∀ (p l : List Char), p.isPrefixOf l = true → l = p ++ l.drop p.length
  | [], l, _ => by simp
  | c :: cs, [], h => by simp at h
  | c :: cs, d :: ds, h => by
    rw [List.isPrefixOf_cons₂] at h
    simp only [Bool.and_eq_true, beq_iff_eq] at h
    obtain ⟨rfl, h2⟩ := h
    simpa using eq_append_drop_of_isPrefixOf cs ds h2

theorem isPrefixOf_append_of_le :
    ∀ (p g x : List Char), p.length ≤ g.length →
      p.isPrefixOf (g ++ x) = p.isPrefixOf g
  | [], _, _, _ => by simp
  | c :: cs, [], x, h => by simp at h
  | c :: cs, d :: ds, x, h => by
    simp only [List.length_cons, Nat.succ_le_succ_iff] at h
    simp only [List.cons_append, List.isPrefixOf_cons₂]
    rw [isPrefixOf_append_of_le cs ds x h]

theorem findOcc_none_not_prefixOf {sep l : List Char}
    (h : findOcc sep l = none) : sep.isPrefixOf l = false := by
  cases l with
  | nil => simp only [findOcc] at h; by_contra hb; simp_all
  | cons c cs => simp only [findOcc] at h; by_contra hb; simp_all

theorem findOcc_none_tail {sep : List Char} {c : Char} {cs : List Char}
    (h : findOcc sep (c :: cs) = none) : findOcc sep cs = none := by
  simp only [findOcc] at h
  by_cases hp : sep.isPrefixOf (c :: cs) = true
  · simp [hp] at h
  · simp only [Bool.not_eq_true] at hp
    simp only [hp, Bool.false_eq_true, if_false, Option.map_eq_none'] at h
    exact h

theorem findOcc_delim :
    ∀ (fm rest : List Char), findOcc d3 (fm ++ ['-', '-']) = none →
      findOcc d3 (fm ++ (d3 ++ rest)) = some (fm, rest)
  | [], rest, _ => by
    simp only [List.nil_append]
    show findOcc d3 ('-' :: ('-' :: '-' :: rest)) = some ([], rest)
    simp only [findOcc]
    rw [show ('-' :: '-' :: '-' :: rest) = d3 ++ rest from rfl,
      isPrefixOf_append_self]
    simp [d3]
  | c :: fm', rest, H => by
    have hsplit : (c :: fm') ++ (d3 ++ rest)
        = ((c :: fm') ++ ['-', '-']) ++ ('-' :: rest) := by
      simp [d3]
    have hlen : d3.length ≤ ((c :: fm') ++ ['-', '-']).length := by
      simp [d3]
    have hnp : d3.isPrefixOf ((c :: fm') ++ (d3 ++ rest)) = false := by
      rw [hsplit, isPrefixOf_append_of_le _ _ _ hlen]
      exact findOcc_none_not_prefixOf H
    have hrec := findOcc_delim fm' rest (findOcc_none_tail H)
    show findOcc d3 (c :: (fm' ++ (d3 ++ rest))) = some (c :: fm', rest)
    simp only [findOcc]
    rw [show (c :: (fm' ++ (d3 ++ rest))) = (c :: fm') ++ (d3 ++ rest) from rfl,
      hnp]
    simp [hrec]

/-- `extract_metadata` in closed form: the result is the all-empty record
unless the content starts with `---` and a second `---` follows, and then it
is determined by the text strictly between the two delimiters. -/
theorem extractMetaL_eq (content : List Char) :
    extractMetaL content =
      if d3.isPrefixOf content then
        match findOcc d3 (content.drop 3) with
        | some (fm, _) => metaOfFrontmatter fm
        | none => emptyMetadata
      else emptyMetadata := by
  by_cases hp : d3.isPrefixOf content = true
  · have hdecomp := eq_append_drop_of_isPrefixOf d3 content hp
    simp only [extractMetaL, hp, if_true]
    rw [show d3.length = 3 from rfl] at hdecomp
    set t := content.drop 3 with ht
    rw [hdecomp]
    have hfirst : findOcc d3 (d3 ++ t) = some ([], t) := by
      show findOcc d3 ('-' :: ('-' :: '-' :: t)) = some ([], t)
      simp only [findOcc]
      rw [show ('-' :: '-' :: '-' :: t) = d3 ++ t from rfl,
        isPrefixOf_append_self]
      simp [d3]
    cases h2 : findOcc d3 t with
    | none =>
      simp only [pySplit, hfirst, h2]
    | some p =>
      obtain ⟨fm, b⟩ := p
      simp only [pySplit, hfirst, h2]
  · simp only [Bool.not_eq_true] at hp
    simp [extractMetaL, hp]

theorem extractMetaL_delim (fm rest : List Char)
    (H : findOcc d3 (fm ++ ['-', '-']) = none) :
    extractMetaL (d3 ++ (fm ++ (d3 ++ rest))) = metaOfFrontmatter fm := by
  rw [extractMetaL_eq]
  rw [isPrefixOf_append_self]
  have hdrop : (d3 ++ (fm ++ (d3 ++ rest))).drop 3 = fm ++ (d3 ++ rest) := by
    exact List.drop_left' (by rfl)
  simp only [if_true, hdrop, findOcc_delim fm rest H]

/-- C8: `extract_metadata` reads only the frontmatter block: if the content
does not start with `---`, or no second `---` delimiter follows, the result
is the all-empty record; otherwise the result is determined by the text
strictly between the first and second delimiters, and the body after the
second delimiter never affects it. -/
theorem c8_frontmatter_only (s : String) :
    extract_metadata s =
      if d3.isPrefixOf s.data then
        match findOcc d3 (s.data.drop 3) with
        | some (fm, _) => metaOfFrontmatter fm
        | none => emptyMetadata
      else emptyMetadata :=
  extractMetaL_eq s.data

theorem extract_metadata_concat_delim (fm : List Char) (body : String)
    (lit : String) (hlit : lit.data = d3 ++ (fm ++ d3))
    (H : findOcc d3 (fm ++ ['-', '-']) = none) :
    extract_metadata (lit ++ body) = metaOfFrontmatter fm := by
  unfold extract_metadata
  rw [String.data_append, hlit]
  rw [List.append_assoc, List.append_assoc]
  exact extractMetaL_delim fm body.data H

/-- C9: a frontmatter `tags` line whose value is an empty bracket list
(`tags: []`) or empty (`tags:`) yields the one-element list containing the
empty string, not the empty list; that list is non-empty, so with a category
also present `process_article` makes no inference call. -/
theorem c9_empty_tags_value (body : String) (resp : Except String Generated) :
    (extract_metadata ("---\ntags: []\ncategory: 算数\n---" ++ body)).tags = [""]
    ∧ (extract_metadata ("---\ntags:\ncategory: 算数\n---" ++ body)).tags = [""]
    ∧ (metadata_phase
        (extract_metadata ("---\ntags: []\ncategory: 算数\n---" ++ body))
        resp).2 = false := by
  have h1 : extract_metadata ("---\ntags: []\ncategory: 算数\n---" ++ body)
      = metaOfFrontmatter "\ntags: []\ncategory: 算数\n".data :=
    extract_metadata_concat_delim _ body _ (by decide) (by decide)
  have h2 : extract_metadata ("---\ntags:\ncategory: 算数\n---" ++ body)
      = metaOfFrontmatter "\ntags:\ncategory: 算数\n".data :=
    extract_metadata_concat_delim _ body _ (by decide) (by decide)
  refine ⟨by rw [h1]; decide, by rw [h2]; decide, ?_⟩
  rw [h1]
  have hc : ¬((metaOfFrontmatter "\ntags: []\ncategory: 算数\n".data).category = ""
      ∨ (metaOfFrontmatter "\ntags: []\ncategory: 算数\n".data).tags = []) := by
    decide
  simp [metadata_phase, hc]

theorem findOcc_colon_of_contains :
    ∀ (line : List Char), line.contains ':' = true →
      ∃ a b, findOcc [':'] line = some (a, b)
  | [], h => by simp at h
  | c :: cs, h => by
    by_cases hc : c = ':'
    · subst hc
      refine ⟨[], cs, ?_⟩
      simp [findOcc]
    · have h2 : cs.contains ':' = true := by
        rw [List.contains_cons] at h
        simpa [Ne.symm hc] using h
      obtain ⟨a, b, hab⟩ := findOcc_colon_of_contains cs h2
      refine ⟨c :: a, b, ?_⟩
      have hnp : [':'].isPrefixOf (c :: cs) = false := by
        rw [List.isPrefixOf_cons₂]
        simp [Ne.symm hc]
      simp [findOcc, hnp, hab]

theorem procLineE_ok (m : Metadata) (line : List Char) :
    procLineE m line = Except.ok (procLine m line) := by
  by_cases hc : line.contains ':' = true
  · obtain ⟨a, b, hab⟩ := findOcc_colon_of_contains line hc
    have hsplit : pySplit [':'] 1 line = [a, b] := by
      simp [pySplit, hab]
    have hm : ':' ∈ line := List.elem_iff.mp hc
    simp [procLineE, procLine, kvOf, hsplit, hm]
  · simp only [Bool.not_eq_true] at hc
    have hm : ':' ∉ line := fun hmem => by
      have h2 : line.contains ':' = true := List.elem_iff.mpr hmem
      rw [hc] at h2
      exact Bool.false_eq_true.mp h2
    simp [procLineE, procLine, kvOf, hm]

theorem foldlM_procLineE_ok :
    ∀ (lines : List (List Char)) (m : Metadata),
      lines.foldlM procLineE m = Except.ok (lines.foldl procLine m)
  | [], m => rfl
  | l :: ls, m => by
    rw [List.foldlM_cons, procLineE_ok]
    show (Except.ok (procLine m l) >>= fun m1 => ls.foldlM procLineE m1)
      = Except.ok ((l :: ls).foldl procLine m)
    rw [List.foldl_cons]
    exact foldlM_procLineE_ok ls (procLine m l)

/-- C2: `extract_metadata` is total.  With its one fallible operation (the
tuple unpacking of `line.split(':', 1)`) made explicit in `Except`, every
input produces a metadata record and no input reaches the error case. -/
theorem c2_extract_metadata_total (s : String) :
    extract_metadataE s = Except.ok (extract_metadata s) := by
  unfold extract_metadataE extract_metadata extractMetaE extractMetaL
  by_cases hp : d3.isPrefixOf s.data = true
  · simp only [hp, if_true]
    cases hps : pySplit d3 2 s.data with
    | nil => rfl
    | cons p0 rest =>
      cases rest with
      | nil => rfl
      | cons p1 rest2 =>
        cases rest2 with
        | nil => rfl
        | cons p2 rest3 =>
          simp only [metaOfFrontmatter]
          exact foldlM_procLineE_ok _ _
  · simp [hp]

/-- C3: `process_article` makes the external inference call if and only if
the extracted category is empty or the extracted tags list is empty. -/
theorem c3_infer_call_iff (m : Metadata) (resp : Except String Generated) :
    (metadata_phase m resp).2 = true ↔ (m.category = "" ∨ m.tags = []) := by
  unfold metadata_phase
  by_cases h : m.category = "" ∨ m.tags = [] <;> simp [h]

/-- C4 fails on the code: when the inference branch runs and the extracted
references are empty, `process_article` overwrites `references` with the
service's `related_pages`, so a field other than category and tags changes. -/
theorem c4_counterexample :
    (metadata_phase (Metadata.mk "t" "d" "" ["x"] [])
        (Except.ok (Generated.mk (some "算数") (some ["y"]) (some ["a.html"])))).2
      = true
    ∧ (metadata_phase (Metadata.mk "t" "d" "" ["x"] [])
        (Except.ok (Generated.mk (some "算数") (some ["y"])
          (some ["a.html"])))).1.references
      ≠ (Metadata.mk "t" "d" "" ["x"] []).references := by
  decide

/-- C4 amended: the inference step never changes title or description, and
it changes references only when the extracted references list was empty (in
which case it takes the service's related pages). -/
theorem c4_amended_frame (m : Metadata) (resp : Except String Generated) :
    ((metadata_phase m resp).1.title = m.title)
    ∧ ((metadata_phase m resp).1.description = m.description)
    ∧ (m.references ≠ [] → (metadata_phase m resp).1.references = m.references) := by
  unfold metadata_phase
  by_cases h : m.category = "" ∨ m.tags = []
  · simp only [h, if_true]
    simp only [applyGenerated]
    refine ⟨?_, ?_, fun href => ?_⟩ <;> split_ifs <;> simp_all
  · simp [h]

theorem c4_amended_frame_witness :
    ((Metadata.mk "t" "d" "" [] ["r.html"]).references ≠ [])
    ∧ (metadata_phase (Metadata.mk "t" "d" "" [] ["r.html"])
        (Except.ok (Generated.mk none none (some ["z.html"])))).1.references
      = (Metadata.mk "t" "d" "" [] ["r.html"]).references :=
  ⟨by decide,
    (c4_amended_frame (Metadata.mk "t" "d" "" [] ["r.html"])
      (Except.ok (Generated.mk none none (some ["z.html"])))).2.2 (by decide)⟩

/-- C5 fails on the code: a failing category/tag inference call is caught
inside `generate_categories_and_tags`; here the call errors, yet the
pipeline run succeeds, continuing with the fallback category `General`. -/
theorem c5_counterexample :
    exceptIsOk (PipelineEnv.mk (Except.ok "body") (Except.error "api down")
        (Except.ok "<p>x</p>") (Except.ok ())).ctResp = false
    ∧ exceptIsOk (process_article (PipelineEnv.mk (Except.ok "body")
        (Except.error "api down") (Except.ok "<p>x</p>") (Except.ok ()))
        none "article") = true
    ∧ (metadata_phase (extract_metadata "body")
        (Except.error "api down")).1.category = "General" := by
  refine ⟨rfl, ?_, by decide⟩
  decide

/-- C5 amended: failures while reading the article, generating the HTML or
writing the output propagate to `main`, which reports them and exits; a
failure of the category/tag inference call alone is caught with a warning,
replaced by the fallback record, and never fails the run. -/
theorem c5_amended_first_error (env : PipelineEnv) (o : Option String)
    (stem : String) :
    (exceptIsOk (process_article env o stem)
      = (exceptIsOk env.readRes && exceptIsOk env.htmlRes
          && exceptIsOk env.writeRes))
    ∧ (∀ msg : String,
        generate_categories_and_tags (Except.error msg) = fallbackGenerated)
    ∧ (∀ e : String, main_run env o stem = MainResult.errorExit e
        ↔ process_article env o stem = Except.error e) := by
  obtain ⟨r, c, h, w⟩ := env
  refine ⟨?_, fun msg => rfl, fun e => ?_⟩
  · cases r <;> cases h <;> cases w <;>
      simp [process_article, exceptIsOk, Bind.bind, Except.bind, Pure.pure,
        Except.pure]
  · unfold main_run
    cases hp : process_article ⟨r, c, h, w⟩ o stem <;> simp

theorem metadata_ext (x y : Metadata) (h1 : x.title = y.title)
    (h2 : x.description = y.description) (h3 : x.category = y.category)
    (h4 : x.tags = y.tags) (h5 : x.references = y.references) : x = y := by
  cases x; cases y; simp_all

theorem procKV_title (m : Metadata) (k v : List Char) :
    (procKV m k v).title = if k = "title".data then scalarVal v else m.title := by
  by_cases h : k = "title".data
  · subst h; simp [procKV]
  · rw [if_neg h]
    unfold procKV
    split_ifs <;> rfl

theorem procKV_description (m : Metadata) (k v : List Char) :
    (procKV m k v).description
      = if k = "description".data then scalarVal v else m.description := by
  by_cases h : k = "description".data
  · subst h
    have e1 : ("description".data = "title".data) = False := eq_false (by decide)
    simp [procKV, e1]
  · rw [if_neg h]
    unfold procKV
    split_ifs <;> rfl

theorem procKV_category (m : Metadata) (k v : List Char) :
    (procKV m k v).category
      = if k = "category".data then scalarVal v else m.category := by
  by_cases h : k = "category".data
  · subst h
    have e1 : ("category".data = "title".data) = False := eq_false (by decide)
    have e2 : ("category".data = "description".data) = False := eq_false (by decide)
    simp [procKV, e1, e2]
  · rw [if_neg h]
    unfold procKV
    split_ifs <;> rfl

theorem procKV_tags (m : Metadata) (k v : List Char) :
    (procKV m k v).tags = if k = "tags".data then listVal v else m.tags := by
  by_cases h : k = "tags".data
  · subst h
    have e1 : ("tags".data = "title".data) = False := eq_false (by decide)
    have e2 : ("tags".data = "description".data) = False := eq_false (by decide)
    have e3 : ("tags".data = "category".data) = False := eq_false (by decide)
    simp [procKV, e1, e2, e3]
  · rw [if_neg h]
    unfold procKV
    split_ifs <;> rfl

theorem procKV_references (m : Metadata) (k v : List Char) :
    (procKV m k v).references
      = if k = "references".data then listVal v else m.references := by
  by_cases h : k = "references".data
  · subst h
    have e1 : ("references".data = "title".data) = False := eq_false (by decide)
    have e2 : ("references".data = "description".data) = False := eq_false (by decide)
    have e3 : ("references".data = "category".data) = False := eq_false (by decide)
    have e4 : ("references".data = "tags".data) = False := eq_false (by decide)
    simp [procKV, e1, e2, e3, e4]
  · rw [if_neg h]
    unfold procKV
    split_ifs <;> rfl

theorem lastVal_nil (kf : List Char) : lastVal kf [] = none := rfl

theorem lastVal_cons_none {kf l : List Char} {ls : List (List Char)}
    (h : kvOf l = none) : lastVal kf (l :: ls) = lastVal kf ls := by
  unfold lastVal
  rw [List.filterMap_cons_none h]

theorem lastVal_cons_miss {kf k v l : List Char} {ls : List (List Char)}
    (h : kvOf l = some (k, v)) (hk : ¬ k = kf) :
    lastVal kf (l :: ls) = lastVal kf ls := by
  unfold lastVal
  rw [List.filterMap_cons_some h]
  simp [List.filter_cons, hk]

theorem lastVal_cons_hit {kf v l : List Char} {ls : List (List Char)}
    (h : kvOf l = some (kf, v)) :
    lastVal kf (l :: ls) = some ((lastVal kf ls).getD v) := by
  unfold lastVal
  rw [List.filterMap_cons_some h]
  rw [List.filter_cons]
  simp only [decide_eq_true_eq, eq_self_iff_true, if_true]
  cases hFl : (List.filterMap kvOf ls).filter (fun p => decide (p.1 = kf)) with
  | nil => simp [hFl]
  | cons f fs =>
    rw [List.getLast?_cons_cons]
    cases hgl : (f :: fs).getLast? with
    | none =>
      exact absurd hgl (by simp [List.getLast?_eq_none_iff])
    | some p => simp [hgl]

theorem foldl_procLine_field {α : Type} (g : Metadata → α) (kf : List Char)
    (pf : List Char → α)
    (hg : ∀ m k v, g (procKV m k v) = if k = kf then pf v else g m) :
    ∀ (lines : List (List Char)) (m : Metadata),
      g (lines.foldl procLine m) = ((lastVal kf lines).map pf).getD (g m)
  | [], m => by simp [lastVal_nil]
  | l :: ls, m => by
    rw [List.foldl_cons]
    rw [foldl_procLine_field g kf pf hg ls (procLine m l)]
    cases hkv : kvOf l with
    | none =>
      rw [lastVal_cons_none hkv]
      have hpl : procLine m l = m := by simp [procLine, hkv]
      rw [hpl]
    | some kv =>
      obtain ⟨k, v⟩ := kv
      have hpl : procLine m l = procKV m k v := by simp [procLine, hkv]
      rw [hpl, hg]
      by_cases hk : k = kf
      · subst hk
        rw [lastVal_cons_hit hkv, if_pos rfl]
        cases hL : lastVal k ls with
        | none => simp [hL]
        | some w => simp [hL]
      · rw [lastVal_cons_miss hkv hk, if_neg hk]

theorem metaOfFrontmatter_spec (fm : List Char) :
    metaOfFrontmatter fm = metaOfLines_spec (splitChar '\n' (wsStrip fm)) := by
  apply metadata_ext
  · exact foldl_procLine_field Metadata.title "title".data scalarVal
      procKV_title (splitChar '\n' (wsStrip fm)) emptyMetadata
  · exact foldl_procLine_field Metadata.description "description".data scalarVal
      procKV_description (splitChar '\n' (wsStrip fm)) emptyMetadata
  · exact foldl_procLine_field Metadata.category "category".data scalarVal
      procKV_category (splitChar '\n' (wsStrip fm)) emptyMetadata
  · exact foldl_procLine_field Metadata.tags "tags".data listVal
      procKV_tags (splitChar '\n' (wsStrip fm)) emptyMetadata
  · exact foldl_procLine_field Metadata.references "references".data listVal
      procKV_references (splitChar '\n' (wsStrip fm)) emptyMetadata

/-- C1: `extract_metadata` agrees on every input with the field-wise
reading of the spec: a record of exactly the five fields, each field taken
from the corresponding `key: value` frontmatter line (the last such line),
scalar values stripped of surrounding whitespace and quotes, and
`tags`/`references` parsed as comma-separated lists after stripping square
brackets. -/
theorem c1_extract_metadata_matches_spec (s : String) :
    extract_metadata s = metadata_spec s := by
  unfold extract_metadata metadata_spec extractMetaL
  by_cases hp : d3.isPrefixOf s.data = true
  · simp only [hp, if_true]
    cases hps : pySplit d3 2 s.data with
    | nil => rfl
    | cons p0 rest =>
      cases rest with
      | nil => rfl
      | cons p1 rest2 =>
        cases rest2 with
        | nil => rfl
        | cons p2 rest3 => exact metaOfFrontmatter_spec p1
  · simp [hp]

set_option maxRecDepth 40000 in
/-- C6 fails on the code in one clause: with title, description, category
and the content fragment all unchanged, changing only the output filename
changes the page (the `active` marker of the navigation moves), because the
active link falls back to the output filename when the category is
unmapped. -/
theorem c6_counterexample :
    create_full_html_page "x" (Metadata.mk "t" "d" "General" [] []) "math.html"
      ≠ create_full_html_page "x" (Metadata.mk "t" "d" "General" [] [])
          "other.html" := by
  decide

set_option maxRecDepth 4000 in
/-- C6 amended: the page is exactly a prefix (doctype, head, header with a
six-entry navigation list, breadcrumb, opening of the main container)
depending only on title, description, category and the output filename,
followed by the content fragment verbatim, followed by a fixed suffix
containing the fixed footer; the page starts with `<!DOCTYPE html>`. -/
theorem c6_amended_page_structure (c : String) (m : Metadata) (f : String) :
    create_full_html_page c m f
      = page_top m.title m.description m.category f ++ c ++ page_suffix
    ∧ (create_full_html_page c m f).data.take 15 = "<!DOCTYPE html>".data
    ∧ (nav_html m.category f).length = 6
    ∧ page_suffix
      = "\n        </div>\n    </main>\n\n" ++ footer_html ++ "\n</body>\n</html>" := by
  refine ⟨rfl, ?_, by simp [nav_html, nav_links], rfl⟩
  show (page_top m.title m.description m.category f ++ c
      ++ page_suffix).data.take 15 = "<!DOCTYPE html>".data
  simp only [String.data_append, page_top, List.append_assoc]
  rw [List.take_append_of_le_length (by decide)]
  decide

theorem collapseRunsSpec_true (cs : List Char) :
    collapseRunsSpec true cs = collapseRunsSpec false (cs.dropWhile dashSpace) := by
  induction cs with
  | nil => rfl
  | cons d ds ih =>
    by_cases hd : dashSpace d = true
    · simp [collapseRunsSpec, hd, List.dropWhile_cons, ih]
    · simp [collapseRunsSpec, hd, List.dropWhile_cons]

theorem collapseRuns_eq_spec_aux :
    ∀ (n : Nat) (l : List Char), l.length ≤ n →
      collapseRuns l = collapseRunsSpec false l := by
  intro n
  induction n with
  | zero =>
    intro l hl
    have h0 : l = [] := List.length_eq_zero.mp (Nat.le_zero.mp hl)
    subst h0
    simp [collapseRuns, collapseRunsSpec]
  | succ n ih =>
    intro l hl
    cases l with
    | nil => simp [collapseRuns, collapseRunsSpec]
    | cons c cs =>
      simp only [List.length_cons, Nat.succ_le_succ_iff] at hl
      by_cases hc : dashSpace c = true
      · rw [show collapseRuns (c :: cs)
            = '-' :: collapseRuns (cs.dropWhile dashSpace) from by
          simp [collapseRuns, hc]]
        rw [show collapseRunsSpec false (c :: cs)
            = '-' :: collapseRunsSpec true cs from by
          simp [collapseRunsSpec, hc]]
        rw [collapseRunsSpec_true]
        congr 1
        apply ih
        have hle := (List.dropWhile_sublist (l := cs) dashSpace).length_le
        omega
      · rw [show collapseRuns (c :: cs) = c :: collapseRuns cs from by
          simp [collapseRuns, hc]]
        rw [show collapseRunsSpec false (c :: cs)
            = c :: collapseRunsSpec false cs from by
          simp [collapseRunsSpec, hc]]
        congr 1
        exact ih cs hl

theorem collapseRuns_eq_spec (l : List Char) :
    collapseRuns l = collapseRunsSpec false l :=
  collapseRuns_eq_spec_aux l.length l (Nat.le_refl _)

/-- C7: when no output filename is supplied, the name is the title with
non-word/non-space/non-hyphen characters deleted, each maximal run of
hyphens and whitespace replaced by a single hyphen, lowercased, plus
`.html`; and the article stem plus `.html` when the title is empty. -/
theorem c7_output_filename (m : Metadata) (stem : String) :
    determine_output_filename none m stem
      = if m.title = "" then stem ++ ".html" else slug_spec m.title ++ ".html" := by
  unfold determine_output_filename genName
  by_cases h : m.title = ""
  · simp [h]
  · simp only [h, if_false, ne_eq, not_false_eq_true, if_true]
    rw [slugify, slug_spec, collapseRuns_eq_spec]

theorem count_true_map_decide (a : String) :
    ∀ (l : List String),
      (l.map fun g => decide (g = a)).count true = l.count a := by
  intro l
  induction l with
  | nil => rfl
  | cons x xs ih =>
    simp only [List.map_cons, List.count_cons, ih]
    by_cases h : x = a <;> simp [h]

theorem active_page_eq (category f : String) :
    active_page category f
      = if category = "算数" then "math.html"
        else if category = "国語" then "japanese.html"
        else if category = "理科" then "science.html"
        else if category = "社会" then "social.html"
        else if category = "コツ・勉強法" then "tips.html"
        else f := rfl

theorem active_count_eq (category f : String) :
    active_count category f
      = if active_page category f ∈ nav_files then 1 else 0 := by
  unfold active_count active_flags
  rw [count_true_map_decide]
  by_cases h : active_page category f ∈ nav_files
  · rw [if_pos h]
    exact List.count_eq_one_of_mem (by decide) h
  · rw [if_neg h]
    exact List.count_eq_zero.mpr h

/-- C10: at most one navigation link is marked active; exactly one when the
category is one of the five mapped categories or the output filename is one
of the six navigation filenames, and none otherwise. -/
theorem c10_at_most_one_active (category f : String) :
    active_count category f ≤ 1
    ∧ (active_count category f = 1
        ↔ (category ∈ ["算数", "国語", "理科", "社会", "コツ・勉強法"]
            ∨ f ∈ nav_files)) := by
  by_cases h1 : category = "算数"
  · subst h1
    rw [active_count_eq,
      show active_page "算数" f = "math.html" from by
        simp [active_page, category_to_file, dict_get],
      if_pos (by decide : ("math.html" : String) ∈ nav_files)]
    exact ⟨Nat.le_refl 1, fun _ => Or.inl (by decide), fun _ => rfl⟩
  by_cases h2 : category = "国語"
  · subst h2
    rw [active_count_eq,
      show active_page "国語" f = "japanese.html" from by
        simp [active_page, category_to_file, dict_get],
      if_pos (by decide : ("japanese.html" : String) ∈ nav_files)]
    exact ⟨Nat.le_refl 1, fun _ => Or.inl (by decide), fun _ => rfl⟩
  by_cases h3 : category = "理科"
  · subst h3
    rw [active_count_eq,
      show active_page "理科" f = "science.html" from by
        simp [active_page, category_to_file, dict_get],
      if_pos (by decide : ("science.html" : String) ∈ nav_files)]
    exact ⟨Nat.le_refl 1, fun _ => Or.inl (by decide), fun _ => rfl⟩
  by_cases h4 : category = "社会"
  · subst h4
    rw [active_count_eq,
      show active_page "社会" f = "social.html" from by
        simp [active_page, category_to_file, dict_get],
      if_pos (by decide : ("social.html" : String) ∈ nav_files)]
    exact ⟨Nat.le_refl 1, fun _ => Or.inl (by decide), fun _ => rfl⟩
  by_cases h5 : category = "コツ・勉強法"
  · subst h5
    rw [active_count_eq,
      show active_page "コツ・勉強法" f = "tips.html" from by
        simp [active_page, category_to_file, dict_get],
      if_pos (by decide : ("tips.html" : String) ∈ nav_files)]
    exact ⟨Nat.le_refl 1, fun _ => Or.inl (by decide), fun _ => rfl⟩
  have hap : active_page category f = f := by
    rw [active_page_eq]
    simp [h1, h2, h3, h4, h5]
  have hcm : ¬ category ∈ ["算数", "国語", "理科", "社会", "コツ・勉強法"] := by
    simp only [List.mem_cons, List.not_mem_nil, or_false]
    push_neg
    exact ⟨h1, h2, h3, h4, h5⟩
  rw [active_count_eq, hap]
  by_cases hf : f ∈ nav_files
  · rw [if_pos hf]
    exact ⟨Nat.le_refl 1, fun _ => Or.inr hf, fun _ => rfl⟩
  · rw [if_neg hf]
    refine ⟨by omega, fun h0 => absurd h0 (by decide), fun hor => ?_⟩
    rcases hor with hc | hff
    · exact absurd hc hcm
    · exact absurd hff hf

end MA
